import Mathlib

/-!
Verification of the libp2p behaviour multiplexer and its pubsub wire codec
(`beacon_node/eth2-libp2p/src/behaviour.rs`).

The file embeds, in order:
* the wire codec for `PubsubMessage` (tag word, payload codecs, encode, decode);
* the `Behaviour` event multiplexer: its outward event queue, the five
  event-injection handlers, `poll`, `subscribe`, `send_rpc` and `publish`.

Collaborator sub-protocols (gossipsub, rpc, identify, ping, discovery) are out
of scope; the calls the multiplexer makes into them are modelled as an ordered
trace of `Action`s, interleaved with queue insertions, so that cross-component
side effects and their ordering relative to enqueues stay observable.
-/

namespace Lighthouse

/-- A single octet of the wire format. -/
abbrev Byte := Fin 256

/-- Truncate a natural number to one octet. -/
def byte (n : Nat) : Byte := ⟨n % 256, Nat.mod_lt n (by decide)⟩

/-- Decode failures of the `ssz` crate's `DecodeError` as used by
`behaviour.rs`: `Invalid` for a bad tag, `TooShort` for truncated input. -/
inductive DecodeError where
  | tooShort
  | invalid
deriving DecidableEq, Repr

/-- Modelled from the spec: the 4-byte unsigned-integer tag word written by
`u32::ssz_append` of the repository's `ssz` crate (not under `src/`): "a 4-byte
unsigned integer discriminant in a fixed, defined byte order", here the
big-endian order of that crate. -/
def encU32 (n : Nat) : List Byte :=
  [byte (n / 2 ^ 24), byte (n / 2 ^ 16), byte (n / 2 ^ 8), byte n]

/-- `u32::ssz_append` appends the 4 tag bytes to the stream. -/
def u32_ssz_append (n : Nat) (s : List Byte) : List Byte := s ++ encU32 n

/-- The 32-bit big-endian value read at `index` (out-of-range positions read
as 0; `u32_ssz_decode` only uses this after its bounds check). -/
def readU32 (bytes : List Byte) (index : Nat) : Nat :=
  (bytes.getD index 0).val * 2 ^ 24 + (bytes.getD (index + 1) 0).val * 2 ^ 16 +
    (bytes.getD (index + 2) 0).val * 2 ^ 8 + (bytes.getD (index + 3) 0).val

/-- Modelled from the spec: `u32::ssz_decode` of the repository's `ssz` crate
(not under `src/`): fails when fewer than 4 bytes remain past `index`,
otherwise consumes exactly 4 bytes and returns the value and the next offset. -/
def u32_ssz_decode (bytes : List Byte) (index : Nat) :
    Except DecodeError (Nat × Nat) :=
  if bytes.length < index + 4 then .error .tooShort
  else .ok (readU32 bytes index, index + 4)

/-- Modelled from the spec: the "self-describing" payload encodings of the
`types` crate (not under `src/`): a payload is its byte string, written as a
4-byte length word followed by the bytes. -/
def length_prefixed_encode (data : List Byte) : List Byte :=
  encU32 data.length ++ data

/-- Modelled from the spec: offset-based decode of a self-describing payload:
read the 4-byte length word, check the remaining input is long enough, and
return the payload bytes together with the offset just past them. -/
def length_prefixed_decode (bytes : List Byte) (index : Nat) :
    Except DecodeError (List Byte × Nat) :=
  match u32_ssz_decode bytes index with
  | .error e => .error e
  | .ok (len, index) =>
      if bytes.length < index + len then .error .tooShort
      else .ok ((bytes.drop index).take len, index + len)

/-- `types::BeaconBlock`, abstracted to its payload bytes (its own fields are
out of scope; the codec below is the self-describing encoding the spec
assumes). -/
structure BeaconBlock where
  data : List Byte
deriving DecidableEq, Repr

/-- Modelled from the spec: `BeaconBlock::ssz_append` (not under `src/`). -/
def BeaconBlock.ssz_append (b : BeaconBlock) (s : List Byte) : List Byte :=
  s ++ length_prefixed_encode b.data

/-- Modelled from the spec: `BeaconBlock::ssz_decode` (not under `src/`). -/
def BeaconBlock.ssz_decode (bytes : List Byte) (index : Nat) :
    Except DecodeError (BeaconBlock × Nat) :=
  (length_prefixed_decode bytes index).map (fun p => (⟨p.1⟩, p.2))

/-- `types::Attestation`, abstracted to its payload bytes. -/
structure Attestation where
  data : List Byte
deriving DecidableEq, Repr

/-- Modelled from the spec: `Attestation::ssz_append` (not under `src/`). -/
def Attestation.ssz_append (a : Attestation) (s : List Byte) : List Byte :=
  s ++ length_prefixed_encode a.data

/-- Modelled from the spec: `Attestation::ssz_decode` (not under `src/`). -/
def Attestation.ssz_decode (bytes : List Byte) (index : Nat) :
    Except DecodeError (Attestation × Nat) :=
  (length_prefixed_decode bytes index).map (fun p => (⟨p.1⟩, p.2))

/-- `PubsubMessage` from `behaviour.rs`: the tagged union sent over gossip. -/
inductive PubsubMessage where
  | Block (block : BeaconBlock)
  | Attestation (attestation : Lighthouse.Attestation)
deriving DecidableEq, Repr

/-- `impl Encodable for PubsubMessage` (`behaviour.rs`): append the `u32` tag
(0 for `Block`, 1 for `Attestation`), then the payload's own encoding. -/
def PubsubMessage.ssz_append : PubsubMessage → List Byte → List Byte
  | .Block block_gossip, s => block_gossip.ssz_append (u32_ssz_append 0 s)
  | .Attestation attestation_gossip, s =>
      attestation_gossip.ssz_append (u32_ssz_append 1 s)

/-- `ssz::ssz_encode`: encode into a fresh stream and drain it. -/
def ssz_encode (m : PubsubMessage) : List Byte := m.ssz_append []

/-- `impl Decodable for PubsubMessage` (`behaviour.rs`): read the `u32` tag,
dispatch on 0 / 1 to the payload decoder, anything else is
`DecodeError::Invalid`. -/
def PubsubMessage.ssz_decode (bytes : List Byte) (index : Nat) :
    Except DecodeError (PubsubMessage × Nat) :=
  match u32_ssz_decode bytes index with
  | .error e => .error e
  | .ok (id, index) =>
      match id with
      | 0 =>
          match BeaconBlock.ssz_decode bytes index with
          | .error e => .error e
          | .ok (block, index) => .ok (.Block block, index)
      | 1 =>
          match Attestation.ssz_decode bytes index with
          | .error e => .error e
          | .ok (attestation, index) => .ok (.Attestation attestation, index)
      | _ => .error .invalid

/-- Payload byte length of a message (its one size-relevant dimension). -/
def PubsubMessage.payload_len : PubsubMessage → Nat
  | .Block b => b.data.length
  | .Attestation a => a.data.length

/-- Opaque peer identifier (`libp2p::PeerId`). -/
abbrev PeerId := Nat

/-- Opaque transport address (`Multiaddr`). -/
abbrev Multiaddr := Nat

/-- Opaque gossip topic (`Topic`). -/
abbrev Topic := Nat

/-- Opaque gossip topic hash (`TopicHash`). -/
abbrev TopicHash := Nat

/-- Opaque rpc event payload (`RPCEvent`). -/
abbrev RPCEvent := Nat

/-- Opaque liveness-probe event (`PingEvent`). -/
abbrev PingEvent := Nat

/-- Opaque discovery result event (`KademliaOut`). -/
abbrev KademliaOut := Nat

/-- `IdentifyInfo`: the address list the multiplexer inspects, plus the rest
of the peer metadata collapsed into one opaque field it never touches. -/
structure IdentifyInfo where
  listen_addrs : List Multiaddr
  meta : Nat
deriving DecidableEq, Repr

/-- `BehaviourEvent` from `behaviour.rs`: the outward events handed to the
swarm driver by `poll`. -/
inductive BehaviourEvent where
  | RPC (peer : PeerId) (event : RPCEvent)
  | PeerDialed (peer : PeerId)
  | Identified (peer : PeerId) (info : IdentifyInfo)
  | GossipMessage (source : PeerId) (topics : List TopicHash)
      (message : PubsubMessage)
deriving DecidableEq, Repr

/-- A received gossipsub message (`GossipsubMessage`). -/
structure GsMessage where
  source : PeerId
  topics : List TopicHash
  data : List Byte
deriving DecidableEq, Repr

/-- `GossipsubEvent`: what the gossipsub collaborator injects. -/
inductive GossipsubEvent where
  | Message (gs_msg : GsMessage)
  | Subscribed (peer_id : PeerId) (topic : TopicHash)
  | Unsubscribed (peer_id : PeerId) (topic : TopicHash)
deriving DecidableEq, Repr

/-- `RPCMessage`: what the rpc collaborator injects. -/
inductive RPCMessage where
  | PeerDialed (peer_id : PeerId)
  | RPC (peer_id : PeerId) (rpc_event : RPCEvent)
deriving DecidableEq, Repr

/-- `IdentifyEvent`: what the identify collaborator injects (error and
send-back payloads are irrelevant to the handler, which ignores them). -/
inductive IdentifyEvent where
  | Identified (peer_id : PeerId) (info : IdentifyInfo)
  | Error
  | SendBack
deriving DecidableEq, Repr

/-- A call the multiplexer makes into a collaborator, or an insertion into
the outward queue. Recording both in one trace keeps their relative order
observable (the source performs them in program order). -/
inductive Action where
  | discoveryAddConnectedAddress (peer : PeerId) (address : Multiaddr)
  | gossipsubPublish (topic : Topic) (data : List Byte)
  | gossipsubSubscribe (topic : Topic)
  | rpcSendRpc (peer : PeerId) (event : RPCEvent)
  | enqueue (event : BehaviourEvent)
deriving DecidableEq, Repr

/-- The `Behaviour` state the embedded code manipulates: the outward event
queue (`events: Vec<BehaviourEvent>`), plus the trace of collaborator calls
and enqueues. The collaborators themselves and the logger hold no state the
embedded handlers read. -/
structure Behaviour where
  events : List BehaviourEvent
  trace : List Action
deriving DecidableEq, Repr

/-- `Behaviour::new`: empty queue, nothing called yet. -/
def Behaviour.new : Behaviour := { events := [], trace := [] }

/-- `self.events.push(e)`: append at the queue tail (and record it). -/
def Behaviour.push (b : Behaviour) (e : BehaviourEvent) : Behaviour :=
  { b with events := b.events ++ [e], trace := b.trace ++ [.enqueue e] }

/-- `NetworkBehaviourEventProcess<GossipsubEvent>::inject_event`: decode the
payload at offset 0; on error log and return unchanged; on success enqueue
the `GossipMessage` (the end offset `_index` is discarded). Subscribe and
unsubscribe notifications are ignored. -/
def Behaviour.inject_gossipsub_event (b : Behaviour) :
    GossipsubEvent → Behaviour
  | .Message gs_msg =>
      match PubsubMessage.ssz_decode gs_msg.data 0 with
      | .error _ => b
      | .ok (msg, _index) =>
          b.push (.GossipMessage gs_msg.source gs_msg.topics msg)
  | .Subscribed _ _ => b
  | .Unsubscribed _ _ => b

/-- `NetworkBehaviourEventProcess<RPCMessage>::inject_event`: pure
passthrough of both variants into the queue. -/
def Behaviour.inject_rpc_message (b : Behaviour) : RPCMessage → Behaviour
  | .PeerDialed peer_id => b.push (.PeerDialed peer_id)
  | .RPC peer_id rpc_event => b.push (.RPC peer_id rpc_event)

/-- `NetworkBehaviourEventProcess<IdentifyEvent>::inject_event`: truncate the
address list to 20 when longer, register every surviving address with the
discovery collaborator, then enqueue `Identified`. Errors and send-backs are
ignored. -/
def Behaviour.inject_identify_event (b : Behaviour) :
    IdentifyEvent → Behaviour
  | .Identified peer_id info =>
      let info :=
        if info.listen_addrs.length > 20 then
          { info with listen_addrs := info.listen_addrs.take 20 }
        else info
      let b :=
        { b with
          trace := b.trace ++ info.listen_addrs.map
            (Action.discoveryAddConnectedAddress peer_id) }
      b.push (.Identified peer_id info)
  | .Error => b
  | .SendBack => b

/-- `NetworkBehaviourEventProcess<PingEvent>::inject_event`: no-op. -/
def Behaviour.inject_ping_event (b : Behaviour) (_event : PingEvent) :
    Behaviour := b

/-- `NetworkBehaviourEventProcess<KademliaOut>::inject_event`: no-op. -/
def Behaviour.inject_kademlia_out (b : Behaviour) (_out : KademliaOut) :
    Behaviour := b

/-- `futures::Async`, the poll outcome. -/
inductive Async (α : Type) where
  | Ready (a : α)
  | NotReady
deriving DecidableEq, Repr

/-- `Behaviour::poll`: if the queue is non-empty, `Ready` with
`self.events.remove(0)` (the head; the tail shifts down); otherwise
`NotReady`. -/
def Behaviour.poll (b : Behaviour) : Async BehaviourEvent × Behaviour :=
  match b.events with
  | e :: rest => (.Ready e, { b with events := rest })
  | [] => (.NotReady, b)

/-- `Behaviour::subscribe`: delegate to the gossipsub collaborator (whose
boolean reply is its own state, out of scope); no queue interaction. -/
def Behaviour.subscribe (b : Behaviour) (topic : Topic) : Behaviour :=
  { b with trace := b.trace ++ [.gossipsubSubscribe topic] }

/-- `Behaviour::send_rpc`: forward to the rpc collaborator. -/
def Behaviour.send_rpc (b : Behaviour) (peer_id : PeerId)
    (rpc_event : RPCEvent) : Behaviour :=
  { b with trace := b.trace ++ [.rpcSendRpc peer_id rpc_event] }

/-- `Behaviour::publish`: encode the message once into `message_bytes`, then
call the gossipsub publish entry point once per topic, in order, with a clone
of those same bytes. -/
def Behaviour.publish (b : Behaviour) (topics : List Topic)
    (message : PubsubMessage) : Behaviour :=
  let message_bytes := ssz_encode message
  { b with
    trace := b.trace ++ topics.map
      (fun topic => Action.gossipsubPublish topic message_bytes) }

/-- The sum of every event type the derived `NetworkBehaviour` dispatch can
inject: one constructor per collaborator. -/
inductive InEvent where
  | gossipsub (e : GossipsubEvent)
  | rpc (e : RPCMessage)
  | identify (e : IdentifyEvent)
  | ping (e : PingEvent)
  | kademlia (e : KademliaOut)
deriving DecidableEq, Repr

/-- Dispatch one injected event to its handler, as the derived
`NetworkBehaviour` implementation does. -/
def Behaviour.inject (b : Behaviour) : InEvent → Behaviour
  | .gossipsub e => b.inject_gossipsub_event e
  | .rpc e => b.inject_rpc_message e
  | .identify e => b.inject_identify_event e
  | .ping e => b.inject_ping_event e
  | .kademlia e => b.inject_kademlia_out e

/-- Run a sequence of injections in order. -/
def Behaviour.runInjections (b : Behaviour) (is : List InEvent) : Behaviour :=
  is.foldl Behaviour.inject b

/-- The outward events one injected event contributes to the queue. It
depends only on the event, not on the queue state. -/
def emitted : InEvent → List BehaviourEvent
  | .gossipsub (.Message gs_msg) =>
      match PubsubMessage.ssz_decode gs_msg.data 0 with
      | .error _ => []
      | .ok (msg, _index) =>
          [.GossipMessage gs_msg.source gs_msg.topics msg]
  | .gossipsub (.Subscribed _ _) => []
  | .gossipsub (.Unsubscribed _ _) => []
  | .rpc (.PeerDialed p) => [.PeerDialed p]
  | .rpc (.RPC p e) => [.RPC p e]
  | .identify (.Identified p info) =>
      [.Identified p { info with listen_addrs := info.listen_addrs.take 20 }]
  | .identify .Error => []
  | .identify .SendBack => []
  | .ping _ => []
  | .kademlia _ => []

/-- Poll repeatedly, at most `fuel` times, collecting the `Ready` events in
the order poll returns them; stop at the first `NotReady`. -/
def drainFuel : Nat → Behaviour → List BehaviourEvent
  | 0, _ => []
  | fuel + 1, b =>
      match b.poll with
      | (.Ready e, b2) => e :: drainFuel fuel b2
      | (.NotReady, _) => []

/-- Poll until `NotReady` (the queue length bounds the polls needed). -/
def Behaviour.drain (b : Behaviour) : List BehaviourEvent :=
  drainFuel b.events.length b

/-- The number of elements Rust's `Vec::remove(0)` shifts left by one when
`poll` dequeues: per `Vec::remove`'s contract, every element after the
removed head, i.e. the rest of the queue. -/
def Behaviour.poll_shift_count (b : Behaviour) : Nat :=
  match b.events with
  | [] => 0
  | _ :: rest => rest.length

end Lighthouse


namespace Lighthouse

theorem getD_append_add {α : Type} (s t : List α) (k : Nat) (d : α) :
    (s ++ t).getD (s.length + k) d = t.getD k d := by
  induction s with
  | nil => simp
  | cons a s ih =>
      simp only [List.cons_append, List.length_cons]
      rw [Nat.add_right_comm]
      simpa using ih

theorem readU32_append (s t : List Byte) (n : Nat) :
    readU32 (s ++ (encU32 n ++ t)) s.length = n % 2 ^ 32 := by
  have h0 : (s ++ (encU32 n ++ t)).getD s.length 0 = (encU32 n ++ t).getD 0 0 := by
    simpa using getD_append_add s (encU32 n ++ t) 0 0
  have h1 := getD_append_add s (encU32 n ++ t) 1 (0 : Byte)
  have h2 := getD_append_add s (encU32 n ++ t) 2 (0 : Byte)
  have h3 := getD_append_add s (encU32 n ++ t) 3 (0 : Byte)
  unfold readU32
  rw [h0, h1, h2, h3]
  simp only [encU32, byte, List.cons_append, List.getD_cons_zero,
    List.getD_cons_succ]
  omega

theorem append_length_eq (s t : List Byte) (n : Nat) :
    (s ++ (encU32 n ++ t)).length = s.length + 4 + t.length := by
  simp [encU32]; omega

theorem u32_decode_append (s t : List Byte) (n : Nat) :
    u32_ssz_decode (s ++ (encU32 n ++ t)) s.length =
      .ok (n % 2 ^ 32, s.length + 4) := by
  unfold u32_ssz_decode
  rw [if_neg (by rw [append_length_eq]; omega), readU32_append]

theorem length_prefixed_decode_encode (pre data : List Byte)
    (h : data.length < 2 ^ 32) :
    length_prefixed_decode (pre ++ length_prefixed_encode data) pre.length =
      .ok (data, pre.length + 4 + data.length) := by
  unfold length_prefixed_decode length_prefixed_encode
  rw [u32_decode_append, Nat.mod_eq_of_lt h]
  have hdrop : (pre ++ (encU32 data.length ++ data)).drop (pre.length + 4) = data := by
    rw [← List.append_assoc]
    have h4 : (pre ++ encU32 data.length).length = pre.length + 4 := by simp [encU32]
    rw [← h4, List.drop_left]
  simp only []
  rw [if_neg (by rw [append_length_eq]; omega), hdrop, List.take_length]

end Lighthouse

namespace Lighthouse

theorem BeaconBlock_decode_encode (pre : List Byte) (b : BeaconBlock) (i : Nat)
    (hi : pre.length = i) (h : b.data.length < 2 ^ 32) :
    BeaconBlock.ssz_decode (pre ++ length_prefixed_encode b.data) i =
      .ok (b, i + 4 + b.data.length) := by
  subst hi
  unfold BeaconBlock.ssz_decode
  rw [length_prefixed_decode_encode pre b.data h]
  rfl

theorem Attestation_decode_encode (pre : List Byte) (a : Attestation) (i : Nat)
    (hi : pre.length = i) (h : a.data.length < 2 ^ 32) :
    Attestation.ssz_decode (pre ++ length_prefixed_encode a.data) i =
      .ok (a, i + 4 + a.data.length) := by
  subst hi
  unfold Attestation.ssz_decode
  rw [length_prefixed_decode_encode pre a.data h]
  rfl

/-- Claim C1: for every constructible `PubsubMessage` whose payload fits the
4-byte length word, decoding the encoding from offset 0 succeeds and returns
a structurally equal message (and consumes the whole encoding). -/
theorem pubsub_roundtrip (m : PubsubMessage) (h : m.payload_len < 2 ^ 32) :
    PubsubMessage.ssz_decode (ssz_encode m) 0 = .ok (m, (ssz_encode m).length) := by
  cases m with
  | Block b =>
      have hb : b.data.length < 2 ^ 32 := h
      have henc : ssz_encode (.Block b) = encU32 0 ++ length_prefixed_encode b.data := rfl
      rw [henc]
      unfold PubsubMessage.ssz_decode
      have h4 : u32_ssz_decode (encU32 0 ++ length_prefixed_encode b.data) 0 = .ok (0, 4) := by
        simpa using u32_decode_append [] (length_prefixed_encode b.data) 0
      rw [h4]
      simp only []
      rw [BeaconBlock_decode_encode (encU32 0) b 4 rfl hb]
      simp [length_prefixed_encode, encU32]
      omega
  | Attestation a =>
      have ha : a.data.length < 2 ^ 32 := h
      have henc : ssz_encode (.Attestation a) = encU32 1 ++ length_prefixed_encode a.data := rfl
      rw [henc]
      unfold PubsubMessage.ssz_decode
      have h4 : u32_ssz_decode (encU32 1 ++ length_prefixed_encode a.data) 0 = .ok (1, 4) := by
        simpa using u32_decode_append [] (length_prefixed_encode a.data) 1
      rw [h4]
      simp only []
      rw [Attestation_decode_encode (encU32 1) a 4 rfl ha]
      simp [length_prefixed_encode, encU32]
      omega

end Lighthouse

namespace Lighthouse

theorem getD_take {α : Type} (l : List α) (j k : Nat) (d : α) (h : k < j) :
    (l.take j).getD k d = l.getD k d := by
  induction l generalizing j k with
  | nil => simp
  | cons a l ih =>
      cases j with
      | zero => omega
      | succ j =>
          cases k with
          | zero => simp
          | succ k => simpa using ih j k (by omega)

theorem readU32_take_append (bytes extra : List Byte) (index j : Nat)
    (h4 : index + 4 ≤ j) (hj : j ≤ bytes.length) :
    readU32 (bytes.take j ++ extra) index = readU32 bytes index := by
  have hlen : (bytes.take j).length = j := List.length_take_of_le hj
  have hk : ∀ k, k < 4 →
      (bytes.take j ++ extra).getD (index + k) 0 = bytes.getD (index + k) 0 := by
    intro k hk
    rw [List.getD_append _ _ _ _ (by omega), getD_take _ _ _ _ (by omega)]
  unfold readU32
  have e0 := hk 0 (by omega)
  have e1 := hk 1 (by omega)
  have e2 := hk 2 (by omega)
  have e3 := hk 3 (by omega)
  simp only [Nat.add_zero] at e0
  rw [e0, e1, e2, e3]

theorem length_prefixed_decode_inv (bytes : List Byte) (index : Nat)
    (d : List Byte) (j : Nat)
    (h : length_prefixed_decode bytes index = .ok (d, j)) :
    index + 4 ≤ bytes.length ∧ j = index + 4 + readU32 bytes index ∧
      j ≤ bytes.length ∧ d = (bytes.drop (index + 4)).take (readU32 bytes index) := by
  unfold length_prefixed_decode u32_ssz_decode at h
  by_cases hb : bytes.length < index + 4
  · rw [if_pos hb] at h; exact absurd h (by simp)
  · rw [if_neg hb] at h
    simp only [] at h
    by_cases hc : bytes.length < index + 4 + readU32 bytes index
    · rw [if_pos hc] at h; exact absurd h (by simp)
    · rw [if_neg hc] at h
      have hd := h
      rw [Except.ok.injEq, Prod.mk.injEq] at hd
      exact ⟨by omega, hd.2.symm, by omega, hd.1.symm⟩

theorem length_prefixed_decode_stable (bytes extra : List Byte) (index : Nat)
    (d : List Byte) (j : Nat)
    (h : length_prefixed_decode bytes index = .ok (d, j)) :
    length_prefixed_decode (bytes.take j ++ extra) index = .ok (d, j) := by
  obtain ⟨h4, hj, hjle, hd⟩ := length_prefixed_decode_inv bytes index d j h
  have htl : (bytes.take j).length = j := List.length_take_of_le hjle
  have hread : readU32 (bytes.take j ++ extra) index = readU32 bytes index :=
    readU32_take_append bytes extra index j (by omega) hjle
  unfold length_prefixed_decode u32_ssz_decode
  rw [if_neg (by simp [htl]; omega), hread]
  simp only []
  rw [if_neg (by simp [htl]; omega)]
  have hdrop : (bytes.take j ++ extra).drop (index + 4) =
      (bytes.take j).drop (index + 4) ++ extra.drop (index + 4 - j) := by
    rw [List.drop_append_eq_append_drop, htl]
  have hslice : ((bytes.take j ++ extra).drop (index + 4)).take (readU32 bytes index) =
      (bytes.take j).drop (index + 4) := by
    rw [hdrop]
    have hxlen : ((bytes.take j).drop (index + 4)).length = readU32 bytes index := by
      simp [htl]; omega
    rw [← hxlen, List.take_left]
  rw [hslice, List.drop_take]
  have : j - (index + 4) = readU32 bytes index := by omega
  rw [this, Except.ok.injEq, Prod.mk.injEq]
  exact ⟨hd.symm, by omega⟩

end Lighthouse

namespace Lighthouse

theorem BeaconBlock_decode_ok_inv (bytes : List Byte) (i : Nat)
    (blk : BeaconBlock) (j : Nat)
    (h : BeaconBlock.ssz_decode bytes i = .ok (blk, j)) :
    length_prefixed_decode bytes i = .ok (blk.data, j) := by
  unfold BeaconBlock.ssz_decode at h
  cases hlp : length_prefixed_decode bytes i with
  | error e => rw [hlp] at h; exact absurd h (by simp [Except.map])
  | ok p =>
      obtain ⟨d, j2⟩ := p
      rw [hlp] at h
      simp only [Except.map, Except.ok.injEq, Prod.mk.injEq] at h
      obtain ⟨hm, hj⟩ := h
      subst hj
      rw [← hm]

theorem Attestation_decode_ok_inv (bytes : List Byte) (i : Nat)
    (a : Attestation) (j : Nat)
    (h : Attestation.ssz_decode bytes i = .ok (a, j)) :
    length_prefixed_decode bytes i = .ok (a.data, j) := by
  unfold Attestation.ssz_decode at h
  cases hlp : length_prefixed_decode bytes i with
  | error e => rw [hlp] at h; exact absurd h (by simp [Except.map])
  | ok p =>
      obtain ⟨d, j2⟩ := p
      rw [hlp] at h
      simp only [Except.map, Except.ok.injEq, Prod.mk.injEq] at h
      obtain ⟨hm, hj⟩ := h
      subst hj
      rw [← hm]

theorem pubsub_decode_too_short (bytes : List Byte) (index : Nat)
    (h : bytes.length < index + 4) :
    PubsubMessage.ssz_decode bytes index = .error .tooShort := by
  unfold PubsubMessage.ssz_decode u32_ssz_decode
  rw [if_pos h]

theorem pubsub_decode_invalid_tag (bytes : List Byte) (index : Nat)
    (hlen : index + 4 ≤ bytes.length) (htag : 2 ≤ readU32 bytes index) :
    PubsubMessage.ssz_decode bytes index = .error .invalid := by
  unfold PubsubMessage.ssz_decode u32_ssz_decode
  rw [if_neg (by omega)]
  simp only []
  obtain ⟨k, hk⟩ : ∃ k, readU32 bytes index = k + 2 :=
    ⟨readU32 bytes index - 2, by omega⟩
  rw [hk]
  rfl

theorem pubsub_decode_ok_inv (bytes : List Byte) (index : Nat)
    (m : PubsubMessage) (j : Nat)
    (h : PubsubMessage.ssz_decode bytes index = .ok (m, j)) :
    index + 4 ≤ bytes.length ∧
      ((readU32 bytes index = 0 ∧ ∃ blk, m = .Block blk ∧
          BeaconBlock.ssz_decode bytes (index + 4) = .ok (blk, j)) ∨
        (readU32 bytes index = 1 ∧ ∃ a, m = .Attestation a ∧
          Attestation.ssz_decode bytes (index + 4) = .ok (a, j))) := by
  unfold PubsubMessage.ssz_decode u32_ssz_decode at h
  by_cases hb : bytes.length < index + 4
  · rw [if_pos hb] at h; exact absurd h (by simp)
  · rw [if_neg hb] at h
    simp only [] at h
    refine ⟨by omega, ?_⟩
    cases hv : readU32 bytes index with
    | zero =>
        rw [hv] at h
        simp only [] at h
        cases hblk : BeaconBlock.ssz_decode bytes (index + 4) with
        | error e => rw [hblk] at h; exact absurd h (by simp)
        | ok p =>
            obtain ⟨blk, j2⟩ := p
            rw [hblk] at h
            simp only [Except.ok.injEq, Prod.mk.injEq] at h
            obtain ⟨hm, hj⟩ := h
            subst hj
            exact Or.inl ⟨rfl, blk, hm.symm, rfl⟩
    | succ t =>
        cases t with
        | zero =>
            rw [hv] at h
            simp only [] at h
            cases ha : Attestation.ssz_decode bytes (index + 4) with
            | error e => rw [ha] at h; exact absurd h (by simp)
            | ok p =>
                obtain ⟨att, j2⟩ := p
                rw [ha] at h
                simp only [Except.ok.injEq, Prod.mk.injEq] at h
                obtain ⟨hm, hj⟩ := h
                subst hj
                exact Or.inr ⟨rfl, att, hm.symm, rfl⟩
        | succ k =>
            rw [hv] at h
            exact absurd h (by simp)

end Lighthouse

namespace Lighthouse

theorem BeaconBlock_decode_stable (bytes extra : List Byte) (i : Nat)
    (blk : BeaconBlock) (j : Nat)
    (h : BeaconBlock.ssz_decode bytes i = .ok (blk, j)) :
    BeaconBlock.ssz_decode (bytes.take j ++ extra) i = .ok (blk, j) := by
  have hlp := BeaconBlock_decode_ok_inv bytes i blk j h
  have hst := length_prefixed_decode_stable bytes extra i blk.data j hlp
  unfold BeaconBlock.ssz_decode
  rw [hst]
  rfl

theorem Attestation_decode_stable (bytes extra : List Byte) (i : Nat)
    (a : Attestation) (j : Nat)
    (h : Attestation.ssz_decode bytes i = .ok (a, j)) :
    Attestation.ssz_decode (bytes.take j ++ extra) i = .ok (a, j) := by
  have hlp := Attestation_decode_ok_inv bytes i a j h
  have hst := length_prefixed_decode_stable bytes extra i a.data j hlp
  unfold Attestation.ssz_decode
  rw [hst]
  rfl

theorem pubsub_decode_stable (bytes extra : List Byte) (index : Nat)
    (m : PubsubMessage) (j : Nat)
    (h : PubsubMessage.ssz_decode bytes index = .ok (m, j)) :
    index + 4 ≤ j ∧ j ≤ bytes.length ∧
      PubsubMessage.ssz_decode (bytes.take j ++ extra) index = .ok (m, j) := by
  obtain ⟨hlen, hcase⟩ := pubsub_decode_ok_inv bytes index m j h
  rcases hcase with ⟨hv, blk, hm, hblk⟩ | ⟨hv, att, hm, ha⟩
  · have hlpi := BeaconBlock_decode_ok_inv bytes (index + 4) blk j hblk
    obtain ⟨h8, hjval, hjle, _⟩ :=
      length_prefixed_decode_inv bytes (index + 4) blk.data j hlpi
    have hj4 : index + 4 ≤ j := by omega
    refine ⟨hj4, hjle, ?_⟩
    have htl : (bytes.take j).length = j := List.length_take_of_le hjle
    unfold PubsubMessage.ssz_decode u32_ssz_decode
    rw [if_neg (by simp [htl]; omega)]
    rw [readU32_take_append bytes extra index j hj4 hjle, hv]
    simp only []
    rw [BeaconBlock_decode_stable bytes extra (index + 4) blk j hblk]
    simp only []
    rw [hm]
  · have hlpi := Attestation_decode_ok_inv bytes (index + 4) att j ha
    obtain ⟨h8, hjval, hjle, _⟩ :=
      length_prefixed_decode_inv bytes (index + 4) att.data j hlpi
    have hj4 : index + 4 ≤ j := by omega
    refine ⟨hj4, hjle, ?_⟩
    have htl : (bytes.take j).length = j := List.length_take_of_le hjle
    unfold PubsubMessage.ssz_decode u32_ssz_decode
    rw [if_neg (by simp [htl]; omega)]
    rw [readU32_take_append bytes extra index j hj4 hjle, hv]
    simp only []
    rw [Attestation_decode_stable bytes extra (index + 4) att j ha]
    simp only []
    rw [hm]

theorem pubsub_decode_block_error_prop (bytes : List Byte) (index : Nat)
    (e : DecodeError) (hlen : index + 4 ≤ bytes.length)
    (hv : readU32 bytes index = 0)
    (hblk : BeaconBlock.ssz_decode bytes (index + 4) = .error e) :
    PubsubMessage.ssz_decode bytes index = .error e := by
  unfold PubsubMessage.ssz_decode u32_ssz_decode
  rw [if_neg (by omega)]
  simp only []
  rw [hv]
  simp only []
  rw [hblk]

theorem pubsub_decode_att_error_prop (bytes : List Byte) (index : Nat)
    (e : DecodeError) (hlen : index + 4 ≤ bytes.length)
    (hv : readU32 bytes index = 1)
    (ha : Attestation.ssz_decode bytes (index + 4) = .error e) :
    PubsubMessage.ssz_decode bytes index = .error e := by
  unfold PubsubMessage.ssz_decode u32_ssz_decode
  rw [if_neg (by omega)]
  simp only []
  rw [hv]
  simp only []
  rw [ha]

end Lighthouse

namespace Lighthouse

theorem inject_events_eq (b : Behaviour) (i : InEvent) :
    (b.inject i).events = b.events ++ emitted i := by
  cases i with
  | gossipsub e =>
      cases e with
      | Message gs_msg =>
          simp only [Behaviour.inject, Behaviour.inject_gossipsub_event, emitted]
          cases hd : PubsubMessage.ssz_decode gs_msg.data 0 with
          | error e2 => simp
          | ok p => simp [Behaviour.push]
      | Subscribed p t =>
          simp [Behaviour.inject, Behaviour.inject_gossipsub_event, emitted]
      | Unsubscribed p t =>
          simp [Behaviour.inject, Behaviour.inject_gossipsub_event, emitted]
  | rpc e =>
      cases e <;>
        simp [Behaviour.inject, Behaviour.inject_rpc_message, emitted,
          Behaviour.push]
  | identify e =>
      cases e with
      | Identified p info =>
          simp only [Behaviour.inject, Behaviour.inject_identify_event, emitted]
          by_cases h20 : info.listen_addrs.length > 20
          · rw [if_pos h20]
            simp [Behaviour.push]
          · rw [if_neg h20]
            have ht : info.listen_addrs.take 20 = info.listen_addrs :=
              List.take_of_length_le (by omega)
            simp [Behaviour.push, ht]
      | Error => simp [Behaviour.inject, Behaviour.inject_identify_event, emitted]
      | SendBack => simp [Behaviour.inject, Behaviour.inject_identify_event, emitted]
  | ping e => simp [Behaviour.inject, Behaviour.inject_ping_event, emitted]
  | kademlia e => simp [Behaviour.inject, Behaviour.inject_kademlia_out, emitted]

theorem runInjections_events (b : Behaviour) (is : List InEvent) :
    (b.runInjections is).events = b.events ++ (is.map emitted).flatten := by
  induction is generalizing b with
  | nil => simp [Behaviour.runInjections]
  | cons i is ih =>
      simp only [Behaviour.runInjections, List.foldl_cons, List.map_cons,
        List.flatten_cons]
      rw [show List.foldl Behaviour.inject (b.inject i) is =
          (b.inject i).runInjections is from rfl, ih, inject_events_eq,
        List.append_assoc]

theorem drainFuel_eq (n : Nat) (b : Behaviour) (h : b.events.length ≤ n) :
    drainFuel n b = b.events := by
  induction n generalizing b with
  | zero =>
      cases hb : b.events with
      | nil => simp [drainFuel]
      | cons e rest => rw [hb] at h; simp at h
  | succ n ih =>
      cases hb : b.events with
      | nil => simp [drainFuel, Behaviour.poll, hb]
      | cons e rest =>
          simp only [drainFuel, Behaviour.poll, hb]
          rw [ih { b with events := rest } (by rw [hb] at h; simpa using h)]

theorem drain_eq (b : Behaviour) : b.drain = b.events :=
  drainFuel_eq b.events.length b (Nat.le_refl _)

theorem poll_nil (b : Behaviour) (h : b.events = []) :
    b.poll = (.NotReady, b) := by
  unfold Behaviour.poll
  rw [h]

theorem poll_cons (b : Behaviour) (e : BehaviourEvent)
    (rest : List BehaviourEvent) (h : b.events = e :: rest) :
    b.poll = (.Ready e, { b with events := rest }) := by
  unfold Behaviour.poll
  rw [h]

end Lighthouse

namespace Lighthouse

/-- Claim C2: decoding any input of length at least 4 whose leading 4-byte
word is a discriminant other than 0 or 1 fails with `DecodeError::Invalid`,
whatever the trailing bytes; the embedded decoder is a total function, so no
input panics. -/
theorem invalid_tag_rejected (bytes : List Byte) (hlen : 4 ≤ bytes.length)
    (h0 : readU32 bytes 0 ≠ 0) (h1 : readU32 bytes 0 ≠ 1) :
    PubsubMessage.ssz_decode bytes 0 = .error .invalid :=
  pubsub_decode_invalid_tag bytes 0 (by omega) (by omega)

/-- Witness for C2: the input `[0, 0, 0, 2, 9, 9]` carries discriminant 2 and
trailing bytes, and is rejected as invalid. -/
theorem invalid_tag_rejected_witness :
    PubsubMessage.ssz_decode [0, 0, 0, 2, 9, 9] 0 = .error .invalid :=
  invalid_tag_rejected [0, 0, 0, 2, 9, 9] (by decide) (by decide) (by decide)

/-- Claim C5: `publish` makes one gossipsub-publish call per topic, in topic
order, every call carrying the same single encoding of the message, and never
touches the outward event queue. -/
theorem publish_fanout (b : Behaviour) (topics : List Topic)
    (message : PubsubMessage) :
    (b.publish topics message).trace =
      b.trace ++ topics.map
        (fun topic => Action.gossipsubPublish topic (ssz_encode message)) ∧
    (b.publish topics message).events = b.events :=
  ⟨rfl, rfl⟩

/-- Claim C6: a gossip message whose payload fails to decode leaves the
behaviour state (queue and trace) exactly as it was: zero outward events,
no error surfaced to the driver. -/
theorem malformed_gossip_contained (b : Behaviour) (gs_msg : GsMessage)
    (e : DecodeError)
    (h : PubsubMessage.ssz_decode gs_msg.data 0 = .error e) :
    b.inject_gossipsub_event (.Message gs_msg) = b := by
  simp only [Behaviour.inject_gossipsub_event]
  rw [h]

/-- Witness for C6: an empty payload fails to decode and the injection leaves
a non-empty queue untouched. -/
theorem malformed_gossip_contained_witness :
    ({ events := [BehaviourEvent.PeerDialed 4], trace := [] } :
        Behaviour).inject_gossipsub_event (.Message ⟨1, [2], []⟩) =
      { events := [BehaviourEvent.PeerDialed 4], trace := [] } :=
  malformed_gossip_contained _ ⟨1, [2], []⟩ .tooShort rfl

/-- Claim C10: whenever a prefix of the gossip payload decodes (from offset 0)
to a message, the handler enqueues the `GossipMessage` event even if the end
offset `j` lies strictly before the end of the payload: the returned offset is
discarded and trailing bytes are never rejected here. -/
theorem gossip_trailing_bytes_accepted (b : Behaviour) (src : PeerId)
    (topics : List TopicHash) (data : List Byte) (m : PubsubMessage) (j : Nat)
    (h : PubsubMessage.ssz_decode data 0 = .ok (m, j)) :
    (b.inject_gossipsub_event (.Message ⟨src, topics, data⟩)).events =
      b.events ++ [.GossipMessage src topics m] := by
  simp only [Behaviour.inject_gossipsub_event]
  rw [h]
  simp [Behaviour.push]

/-- Witness for C10: a valid 8-byte encoding followed by two junk bytes is
accepted and enqueued. -/
theorem gossip_trailing_bytes_witness :
    (Behaviour.new.inject_gossipsub_event
        (.Message ⟨3, [4], ssz_encode (.Block ⟨[]⟩) ++ [7, 7]⟩)).events =
      [.GossipMessage 3 [4] (.Block ⟨[]⟩)] :=
  gossip_trailing_bytes_accepted Behaviour.new 3 [4] _ (.Block ⟨[]⟩) 8 rfl

end Lighthouse

namespace Lighthouse

/-- Witness for C1: the round trip at the concrete message
`Block { data := [5, 6] }`. -/
theorem pubsub_roundtrip_witness :
    PubsubMessage.ssz_decode (ssz_encode (.Block ⟨[5, 6]⟩)) 0 =
      .ok (.Block ⟨[5, 6]⟩, (ssz_encode (.Block ⟨[5, 6]⟩)).length) :=
  pubsub_roundtrip (.Block ⟨[5, 6]⟩) (by decide)

/-- Claim C3: events contributed by any interleaving of injections are
returned by successive polls in insertion order; `poll` removes and returns
the head of a non-empty queue and returns `NotReady` on an empty queue. -/
theorem fifo_ordering (b : Behaviour) (is : List InEvent) :
    (b.runInjections is).drain = b.events ++ (is.map emitted).flatten ∧
    (b.events = [] → b.poll = (.NotReady, b)) ∧
    (∀ (e : BehaviourEvent) (rest : List BehaviourEvent),
      b.events = e :: rest →
        b.poll = (.Ready e, { b with events := rest })) := by
  refine ⟨?_, poll_nil b, poll_cons b⟩
  rw [drain_eq, runInjections_events]

/-- Witness for C3: two rpc injections drain in insertion order; a singleton
queue polls `Ready` with its head; the empty behaviour polls `NotReady`. -/
theorem fifo_ordering_witness :
    (Behaviour.new.runInjections
        [.rpc (.PeerDialed 1), .rpc (.RPC 2 3)]).drain =
      Behaviour.new.events ++
        (([.rpc (.PeerDialed 1), .rpc (.RPC 2 3)] :
            List InEvent).map emitted).flatten ∧
    Behaviour.new.poll = (.NotReady, Behaviour.new) ∧
    ({ events := [BehaviourEvent.PeerDialed 7], trace := [] } :
        Behaviour).poll =
      (.Ready (BehaviourEvent.PeerDialed 7),
        { events := [], trace := [] }) :=
  ⟨(fifo_ordering Behaviour.new [.rpc (.PeerDialed 1), .rpc (.RPC 2 3)]).1,
   (fifo_ordering Behaviour.new []).2.1 rfl,
   (fifo_ordering { events := [BehaviourEvent.PeerDialed 7], trace := [] }
      []).2.2 (BehaviourEvent.PeerDialed 7) [] rfl⟩

/-- Claim C4: an identify `Identified` event enqueues exactly one
`Identified(peer, info)` event whose address list is the first 20 addresses
(unchanged when there were at most 20), after making exactly one
discovery-registration call per surviving address, in list order, all before
the enqueue. -/
theorem identify_truncation_and_registration (b : Behaviour) (p : PeerId)
    (info : IdentifyInfo) :
    (b.inject_identify_event (.Identified p info)).events =
      b.events ++ [.Identified p
        { info with listen_addrs := info.listen_addrs.take 20 }] ∧
    (b.inject_identify_event (.Identified p info)).trace =
      b.trace ++ (info.listen_addrs.take 20).map
          (Action.discoveryAddConnectedAddress p) ++
        [Action.enqueue (.Identified p
          { info with listen_addrs := info.listen_addrs.take 20 })] ∧
    (info.listen_addrs.length ≤ 20 →
      ({ info with listen_addrs := info.listen_addrs.take 20 }) = info) := by
  by_cases h20 : info.listen_addrs.length > 20
  · refine ⟨?_, ?_, fun hle => absurd h20 (by omega)⟩ <;>
      simp [Behaviour.inject_identify_event, if_pos h20, Behaviour.push]
  · have ht : info.listen_addrs.take 20 = info.listen_addrs :=
      List.take_of_length_le (by omega)
    refine ⟨?_, ?_, fun hle => ?_⟩ <;>
      simp [Behaviour.inject_identify_event, if_neg h20, Behaviour.push, ht]

/-- Witness for C4: 25 addresses are cut to the first 20 with 20 registration
calls before the enqueue; a 2-address list is left unchanged. -/
theorem identify_truncation_witness :
    (Behaviour.new.inject_identify_event
        (.Identified 5 ⟨List.range 25, 0⟩)).trace =
      (List.range 20).map (Action.discoveryAddConnectedAddress 5) ++
        [Action.enqueue (.Identified 5 ⟨List.range 20, 0⟩)] ∧
    ({ (⟨List.range 2, 0⟩ : IdentifyInfo) with
        listen_addrs := (List.range 2).take 20 }) = ⟨List.range 2, 0⟩ := by
  constructor
  · have h :=
      (identify_truncation_and_registration Behaviour.new 5
        ⟨List.range 25, 0⟩).2.1
    rw [h]
    rfl
  · exact (identify_truncation_and_registration Behaviour.new 5
      ⟨List.range 2, 0⟩).2.2 (by decide)

/-- Claim C7: pubsub decoding is total and in-bounds: fewer than 4 bytes past
the offset is a `TooShort` error, a discriminant other than 0 / 1 is an
`Invalid` error, a failing payload decode propagates its error, and a
successful decode consumes an end offset within the input and depends only on
the bytes before that offset (so no read past the end can influence it). -/
theorem pubsub_decode_total_and_in_bounds (bytes : List Byte) (index : Nat) :
    (bytes.length < index + 4 →
      PubsubMessage.ssz_decode bytes index = .error .tooShort) ∧
    (index + 4 ≤ bytes.length → 2 ≤ readU32 bytes index →
      PubsubMessage.ssz_decode bytes index = .error .invalid) ∧
    (∀ e : DecodeError, index + 4 ≤ bytes.length → readU32 bytes index = 0 →
      BeaconBlock.ssz_decode bytes (index + 4) = .error e →
      PubsubMessage.ssz_decode bytes index = .error e) ∧
    (∀ e : DecodeError, index + 4 ≤ bytes.length → readU32 bytes index = 1 →
      Attestation.ssz_decode bytes (index + 4) = .error e →
      PubsubMessage.ssz_decode bytes index = .error e) ∧
    (∀ (m : PubsubMessage) (j : Nat),
      PubsubMessage.ssz_decode bytes index = .ok (m, j) →
      index + 4 ≤ j ∧ j ≤ bytes.length ∧
        ∀ extra, PubsubMessage.ssz_decode (bytes.take j ++ extra) index =
          .ok (m, j)) :=
  ⟨pubsub_decode_too_short bytes index,
   fun hl ht => pubsub_decode_invalid_tag bytes index hl ht,
   fun e hl hv hb => pubsub_decode_block_error_prop bytes index e hl hv hb,
   fun e hl hv ha => pubsub_decode_att_error_prop bytes index e hl hv ha,
   fun m j h =>
     ⟨(pubsub_decode_stable bytes [] index m j h).1,
      (pubsub_decode_stable bytes [] index m j h).2.1,
      fun extra => (pubsub_decode_stable bytes extra index m j h).2.2⟩⟩

/-- Witness for C7: a 2-byte input is `TooShort`, and a successful decode of
a 9-byte encoding is unchanged by appending a junk byte past its end offset. -/
theorem pubsub_decode_total_witness :
    PubsubMessage.ssz_decode [0, 0] 0 = .error .tooShort ∧
    PubsubMessage.ssz_decode
        ((ssz_encode (.Block ⟨[9]⟩)).take 9 ++ [7]) 0 =
      .ok (.Block ⟨[9]⟩, 9) :=
  ⟨(pubsub_decode_total_and_in_bounds [0, 0] 0).1 (by decide),
   ((pubsub_decode_total_and_in_bounds (ssz_encode (.Block ⟨[9]⟩)) 0).2.2.2.2
      (.Block ⟨[9]⟩) 9 rfl).2.2 [7]⟩

/-- Claim C8 (refuted): `poll` dequeues with `Vec::remove(0)` on the growable
`events` array, which shifts every remaining element: the per-poll shift work
is the queue length minus one and is unbounded, not O(1). Evaluated at a
101-event queue, one poll shifts 100 elements. -/
theorem poll_dequeue_is_linear_shift :
    Behaviour.poll_shift_count
        { events := List.replicate 101 (.PeerDialed 0), trace := [] } = 100 ∧
    ∀ c : Nat, ∃ b : Behaviour, c < b.poll_shift_count := by
  constructor
  · rfl
  · intro c
    refine ⟨Behaviour.mk
      (List.replicate (c + 2) (BehaviourEvent.PeerDialed 0)) [], ?_⟩
    simp only [Behaviour.poll_shift_count, List.replicate_succ,
      List.length_cons, List.length_replicate]
    omega

/-- Claim C9: every injection handler only appends at the queue tail, leaving
previously queued events and their order unchanged, and a `Ready` poll removes
exactly the head. -/
theorem handlers_append_only (b : Behaviour) (i : InEvent) :
    (b.inject i).events = b.events ++ emitted i ∧
    (∀ b2 : Behaviour, b2.events = [] → b2.poll = (.NotReady, b2)) ∧
    (∀ (b2 : Behaviour) (e : BehaviourEvent) (rest : List BehaviourEvent),
      b2.events = e :: rest →
        b2.poll = (.Ready e, { b2 with events := rest })) :=
  ⟨inject_events_eq b i, poll_nil, poll_cons⟩

/-- Witness for C9: an identify no-op injection appends nothing to a
non-empty queue, and polling that queue removes exactly its head. -/
theorem handlers_append_only_witness :
    (({ events := [BehaviourEvent.PeerDialed 8], trace := [] } :
        Behaviour).inject (.identify .Error)).events =
      [BehaviourEvent.PeerDialed 8] ++ emitted (.identify .Error) ∧
    ({ events := [BehaviourEvent.PeerDialed 8], trace := [] } :
        Behaviour).poll =
      (.Ready (BehaviourEvent.PeerDialed 8), { events := [], trace := [] }) :=
  ⟨(handlers_append_only
      { events := [BehaviourEvent.PeerDialed 8], trace := [] }
      (.identify .Error)).1,
   (handlers_append_only
      { events := [BehaviourEvent.PeerDialed 8], trace := [] }
      (.identify .Error)).2.2
      { events := [BehaviourEvent.PeerDialed 8], trace := [] }
      (BehaviourEvent.PeerDialed 8) [] rfl⟩

end Lighthouse
